import Mathlib

/-!
Verification of the 3DES file encryption utility (src/main.c).

The program derives a 24-byte key and an 8-byte IV from a password via
OpenSSL's EVP_BytesToKey (SHA-256 digest, no salt, count = 1) and then
encrypts or decrypts a file with DES-EDE3 in CBC mode, streaming the file
through EVP_EncryptUpdate / EVP_EncryptFinal_ex (resp. the decrypt pair)
in 1 MiB chunks, with PKCS#7 padding handled by the EVP layer.

Bytes are modelled as natural numbers; byte sequences as `List Nat`.
The cryptographic primitives live in OpenSSL, outside this repository's
sources, so they are modelled abstractly, following the spec:
the digest is an arbitrary function `H : List Nat → List Nat`
(instantiated with SHA-256's 32-byte output length where needed), and the
block cipher is an arbitrary forward permutation `E` on 8-byte blocks with
inverse `D`.  All control flow, buffering, chaining, padding and error
handling is modelled from src/main.c and the exact EVP semantics the spec
describes.
-/

namespace Lab

/-- Cipher block size in bytes of EVP_des_ede3_cbc (64-bit block). -/
def blockSize : Nat := 8

/-- Key length in bytes of EVP_des_ede3_cbc. -/
def keyLen : Nat := 24

/-- IV length in bytes of EVP_des_ede3_cbc. -/
def ivLen : Nat := 8

/-- The bytes of a NUL-terminated C string, as consumed by
`strlen(password)` in `generate_key_iv` (src/main.c line 35): everything
before the first NUL byte. -/
def strlenBytes (p : List Nat) : List Nat := p.takeWhile (fun b => b != 0)

/-- Modelled from the spec: the digest-concatenation loop of OpenSSL's
`EVP_BytesToKey` with count = 1 and no salt (the function itself is in
OpenSSL, not in src/).  Starting from an empty previous digest `prev`,
repeatedly digest (previous digest output ++ password) and concatenate the
digest outputs until at least `need` bytes have been produced. -/
def btkLoop (H : List Nat → List Nat) (pw : List Nat) (prev : List Nat) (need : Nat) :
    List Nat :=
  if need = 0 then []
  else
    let d := H (prev ++ pw)
    d ++ btkLoop H pw d (need - max d.length 1)
termination_by need
decreasing_by omega

/-- Modelled from the spec: OpenSSL's `EVP_BytesToKey` with count = 1 and
no salt — run the digest-concatenation loop until `klen + vlen` bytes are
available, slice the first `klen` bytes as the key and the next `vlen`
bytes as the IV. -/
def EVP_BytesToKey (H : List Nat → List Nat) (klen vlen : Nat) (pw : List Nat) :
    List Nat × List Nat :=
  let t := btkLoop H pw [] (klen + vlen)
  (t.take klen, (t.drop klen).take vlen)

/-- Model of `generate_key_iv` (src/main.c lines 32–40): the password is a
NUL-terminated C string read via `strlen`, and key/IV sizes come from
EVP_des_ede3_cbc (24-byte key, 8-byte IV).  The digest `H` abstracts
EVP_sha256. -/
def generate_key_iv (H : List Nat → List Nat) (password : List Nat) :
    List Nat × List Nat :=
  EVP_BytesToKey H keyLen ivLen (strlenBytes password)

/-- The `i`-th digest output of the reference EVP_BytesToKey scheme:
`d₀ = H(password)`, `dᵢ₊₁ = H(dᵢ ++ password)`. -/
def digestIter (H : List Nat → List Nat) (pw : List Nat) : Nat → List Nat
  | 0 => H pw
  | n + 1 => H (digestIter H pw n ++ pw)

/-- Reference digest stream: the concatenation of successive digest
outputs `dᵢ, dᵢ₊₁, …` until at least `need` bytes have been produced. -/
def refStream (H : List Nat → List Nat) (pw : List Nat) (i need : Nat) : List Nat :=
  if need = 0 then []
  else
    let d := digestIter H pw i
    d ++ refStream H pw (i + 1) (need - max d.length 1)
termination_by need
decreasing_by omega

/-- The reference key/IV derivation as the spec words it: concatenate
successive digest outputs (starting from digesting the bare password)
until at least K + V = 24 + 8 bytes are produced, take the first 24 bytes
as the key and the next 8 as the IV. -/
def refKeyIV (H : List Nat → List Nat) (pw : List Nat) : List Nat × List Nat :=
  let t := refStream H pw 0 (24 + 8)
  (t.take 24, (t.drop 24).take 8)

/-- A concrete 32-byte-output digest used to instantiate theorems with
hypotheses on the abstract digest. -/
def constH (x : List Nat) : List Nat := List.replicate 32 (x.length % 256)

/-- The error taxonomy of the spec (§7) for the transform pipeline. -/
inductive TransformError where
  | CipherInitFailed : TransformError
  | PaddingError : TransformError
  | IOFailure : TransformError
deriving DecidableEq, Repr

instance exceptDecEq {α β : Type} [DecidableEq α] [DecidableEq β] :
    DecidableEq (Except α β) := fun x y =>
  match x, y with
  | Except.ok a, Except.ok b =>
    if h : a = b then Decidable.isTrue (congrArg Except.ok h)
    else Decidable.isFalse (fun hc => h (Except.ok.inj hc))
  | Except.error a, Except.error b =>
    if h : a = b then Decidable.isTrue (congrArg Except.error h)
    else Decidable.isFalse (fun hc => h (Except.error.inj hc))
  | Except.ok _, Except.error _ => Decidable.isFalse (fun hc => Except.noConfusion hc)
  | Except.error _, Except.ok _ => Decidable.isFalse (fun hc => Except.noConfusion hc)

/-- Bytewise XOR of two blocks, as used by CBC chaining. -/
def xorBlock (a b : List Nat) : List Nat := List.zipWith Nat.xor a b

/-- CBC encryption of a list of plaintext blocks: each plaintext block is
XORed with the previous ciphertext block (`c`, the IV for the first
block) and then passed through the cipher's forward permutation `E`. -/
def cbcEncBlocks (E : List Nat → List Nat) (c : List Nat) :
    List (List Nat) → List (List Nat)
  | [] => []
  | b :: bs =>
    let ct := E (xorBlock b c)
    ct :: cbcEncBlocks E ct bs

/-- The CBC chaining register ("previous ciphertext block") after
encrypting the given blocks starting from register value `c`. -/
def cbcLast (E : List Nat → List Nat) (c : List Nat) : List (List Nat) → List Nat
  | [] => c
  | b :: bs => cbcLast E (E (xorBlock b c)) bs

/-- CBC decryption of a list of ciphertext blocks: each ciphertext block
is passed through the cipher's inverse permutation `D` and XORed with the
previous ciphertext block (`c`, the IV for the first block). -/
def cbcDecBlocks (D : List Nat → List Nat) (c : List Nat) :
    List (List Nat) → List (List Nat)
  | [] => []
  | ct :: cts => xorBlock (D ct) c :: cbcDecBlocks D ct cts

/-- Split a byte sequence into consecutive blocks of `blockSize` = 8
bytes (a trailing shorter run becomes a final short chunk). -/
def toBlocks : List Nat → List (List Nat)
  | [] => []
  | a :: b :: c :: d :: e :: f :: g :: h :: rest =>
    [a, b, c, d, e, f, g, h] :: toBlocks rest
  | l => [l]

/-- Number of PKCS#7 padding bytes for an input of length `n`: pads the
last partial block up to the block size, a full extra block when `n` is
already a multiple of the block size. -/
def padCount (n : Nat) : Nat := 8 - n % 8

/-- PKCS#7 padding as applied by the EVP layer at finalization: append
`padCount` bytes each of value `padCount`. -/
def pkcs7pad (b : List Nat) : List Nat :=
  b ++ List.replicate (padCount b.length) (padCount b.length)

/-- The complete-blocks part of a byte sequence: the longest prefix whose
length is a multiple of the block size. -/
def fullPart (l : List Nat) : List Nat := l.take (l.length / 8 * 8)

/-- The partial-block remainder of a byte sequence after `fullPart`. -/
def restPart (l : List Nat) : List Nat := l.drop (l.length / 8 * 8)

/-- The state of an EVP cipher context during streaming encryption: the
CBC chaining register plus the buffered partial-block bytes that
EVP_EncryptUpdate has not yet processed. -/
structure EvpCtx where
  chain : List Nat
  buf : List Nat
deriving DecidableEq, Repr

/-- Model of EVP_EncryptUpdate as called in the fread loop of
`encrypt_file` (src/main.c lines 83–90): prepend the buffered bytes to
the new data, CBC-encrypt every complete 8-byte block, emit the
ciphertext, and buffer the remaining partial block. -/
def EVP_EncryptUpdate (E : List Nat → List Nat) (st : EvpCtx) (data : List Nat) :
    EvpCtx × List Nat :=
  let all := st.buf ++ data
  (⟨cbcLast E st.chain (toBlocks (fullPart all)), restPart all⟩,
   (cbcEncBlocks E st.chain (toBlocks (fullPart all))).flatten)

/-- Model of EVP_EncryptFinal_ex (src/main.c lines 93–98): PKCS#7-pad the
buffered partial block to a full block and CBC-encrypt it. -/
def EVP_EncryptFinal (E : List Nat → List Nat) (st : EvpCtx) : List Nat :=
  (cbcEncBlocks E st.chain (toBlocks (pkcs7pad st.buf))).flatten

/-- Run the fread/EVP_EncryptUpdate loop of `encrypt_file` over a list of
chunks (the successive fread results), concatenating everything written
to the output stream. -/
def runUpdates (E : List Nat → List Nat) (st : EvpCtx) :
    List (List Nat) → EvpCtx × List Nat
  | [] => (st, [])
  | c :: cs =>
    let r := EVP_EncryptUpdate E st c
    let rest := runUpdates E r.1 cs
    (rest.1, r.2 ++ rest.2)

/-- The byte transform of `encrypt_file` (src/main.c lines 49–103): the
input stream arrives as a list of chunks (fread results); the output is
everything fwrite'd — all EVP_EncryptUpdate output followed by the
EVP_EncryptFinal_ex output.  The cipher context starts with the chaining
register set to the IV and an empty partial-block buffer. -/
def encrypt_file (E : List Nat → List Nat) (iv : List Nat)
    (chunks : List (List Nat)) : List Nat :=
  let r := runUpdates E ⟨iv, []⟩ chunks
  r.2 ++ EVP_EncryptFinal E r.1

/-- Encryption of a byte sequence read in a single chunk. -/
def encryptBytes (E : List Nat → List Nat) (iv data : List Nat) : List Nat :=
  encrypt_file E iv [data]

/-- The EVP padding check performed by EVP_DecryptFinal_ex on the
decrypted data: the last byte `n` must lie in [1, 8] and the trailing `n`
bytes must all equal `n`. -/
def validPad (pt : List Nat) : Bool :=
  let n := (pt.getLast?).getD 0
  decide (1 ≤ n) && decide (n ≤ 8) &&
    (pt.drop (pt.length - n)).all (fun b => b == n)

/-- Strip the PKCS#7 padding from decrypted data. -/
def stripPad (pt : List Nat) : List Nat :=
  pt.take (pt.length - (pt.getLast?).getD 0)

/-- The byte transform of `decrypt_file` (src/main.c lines 112–166) on the
whole ciphertext: EVP_DecryptUpdate/Final fail unless the input is a
positive multiple of the block size; otherwise CBC-decrypt all blocks,
validate the PKCS#7 padding of the result (failing with the spec's
`PaddingError` if invalid — in the source, EVP_DecryptFinal_ex returning
an error) and strip it. -/
def decrypt_file (D : List Nat → List Nat) (iv ct : List Nat) :
    Except TransformError (List Nat) :=
  if ct.length = 0 ∨ ct.length % 8 ≠ 0 then Except.error TransformError.PaddingError
  else
    let pt := (cbcDecBlocks D iv (toBlocks ct)).flatten
    if validPad pt then Except.ok (stripPad pt)
    else Except.error TransformError.PaddingError

/-- How a call into the core finishes: a normal return with a value, or
termination of the whole process with an exit status. -/
inductive Outcome where
  | ret : Nat → Outcome
  | exitProcess : Nat → Outcome
deriving DecidableEq, Repr

/-- Control-flow model of `generate_key_iv` (src/main.c lines 32–40): if
the EVP_BytesToKey primitive succeeds the function returns 1; on failure
it prints an error message and calls exit(1). -/
def generate_key_iv_run (primitiveOk : Bool) : Outcome :=
  if primitiveOk then Outcome.ret 1 else Outcome.exitProcess 1

/-- The environment outcomes encountered by one run of `encrypt_file` or
`decrypt_file`: whether each fallible call succeeds.  `writeOk` records
whether the fwrite calls to the output stream succeed. -/
structure RunEnv where
  openOk : Bool
  btkOk : Bool
  ctxNewOk : Bool
  initOk : Bool
  updateOk : Bool
  finalOk : Bool
  writeOk : Bool
deriving DecidableEq, Repr

/-- The output length the spec's §3 invariant asserts for encryption: the
input length rounded up to the next multiple of the block size, plus one
additional block size. -/
def claimedEncLen (n : Nat) : Nat := (n + 7) / 8 * 8 + 8

/-- Control-flow model of `encrypt_file` (src/main.c lines 49–103; the
branch structure of `decrypt_file`, lines 112–166, is identical): every
failed check prints an error message and calls exit(1); otherwise the
function returns and main returns 0.  The fwrite results (`env.writeOk`)
are never examined by the source, so they do not appear in the body. -/
def encrypt_file_run (env : RunEnv) : Outcome :=
  if ¬ env.openOk then Outcome.exitProcess 1
  else
    match generate_key_iv_run env.btkOk with
    | Outcome.exitProcess c => Outcome.exitProcess c
    | Outcome.ret r =>
      if r ≠ 1 then Outcome.exitProcess 1
      else if ¬ env.ctxNewOk then Outcome.exitProcess 1
      else if ¬ env.initOk then Outcome.exitProcess 1
      else if ¬ env.updateOk then Outcome.exitProcess 1
      else if ¬ env.finalOk then Outcome.exitProcess 1
      else Outcome.ret 0

/-! ### Helper lemmas about lists and blocks -/

theorem take_len_add (x y : List Nat) (t : Nat) :
    (x ++ y).take (x.length + t) = x ++ y.take t := by
  induction x with
  | nil => simp
  | cons a xs ih =>
    have harith : xs.length + 1 + t = (xs.length + t) + 1 := by omega
    simp only [List.cons_append, List.length_cons, harith, List.take_succ_cons, ih]

theorem drop_len_add (x y : List Nat) (t : Nat) :
    (x ++ y).drop (x.length + t) = y.drop t := by
  induction x with
  | nil => simp
  | cons a xs ih =>
    have harith : xs.length + 1 + t = (xs.length + t) + 1 := by omega
    simp only [List.cons_append, List.length_cons, harith, List.drop_succ_cons, ih]

theorem toBlocks_nil : toBlocks [] = [] := rfl

theorem toBlocks_of_ne (l : List Nat) (hne : l ≠ []) :
    toBlocks l = l.take 8 :: toBlocks (l.drop 8) := by
  match l with
  | [] => exact absurd rfl hne
  | [a] => rfl
  | [a, b] => rfl
  | [a, b, c] => rfl
  | [a, b, c, d] => rfl
  | [a, b, c, d, e] => rfl
  | [a, b, c, d, e, f] => rfl
  | [a, b, c, d, e, f, g] => rfl
  | a :: b :: c :: d :: e :: f :: g :: h :: rest => rfl

theorem list_drop8_induction (P : List Nat → Prop) (h0 : P [])
    (hstep : ∀ l, l ≠ [] → P (l.drop 8) → P l) (l : List Nat) : P l :=
  if hl : l = [] then hl ▸ h0
  else hstep l hl (list_drop8_induction P h0 hstep (l.drop 8))
termination_by l.length
decreasing_by
  have : l.length ≠ 0 := fun h => hl (List.length_eq_zero.mp h)
  simp only [List.length_drop]
  omega

theorem flatten_toBlocks (l : List Nat) : (toBlocks l).flatten = l := by
  induction l using list_drop8_induction with
  | h0 => simp [toBlocks_nil]
  | hstep l hne ih =>
    rw [toBlocks_of_ne _ hne]
    simp only [List.flatten_cons, ih, List.take_append_drop]

theorem toBlocks_block_length (l : List Nat) (h : 8 ∣ l.length) :
    ∀ b ∈ toBlocks l, b.length = 8 := by
  induction l using list_drop8_induction with
  | h0 => simp [toBlocks_nil]
  | hstep l hne ih =>
    have hlen : l.length ≠ 0 := fun hl => hne (List.length_eq_zero.mp hl)
    have h8 : 8 ≤ l.length := Nat.le_of_dvd (Nat.pos_of_ne_zero hlen) h
    have hdvd : 8 ∣ (l.drop 8).length := by
      simp only [List.length_drop]
      exact (Nat.dvd_sub' h ⟨1, rfl⟩)
    rw [toBlocks_of_ne _ hne]
    simp only [List.mem_cons]
    rintro b (rfl | hb)
    · simp [List.length_take]; omega
    · exact ih hdvd b hb

theorem toBlocks_length_mul (l : List Nat) (h : 8 ∣ l.length) :
    (toBlocks l).length * 8 = l.length := by
  induction l using list_drop8_induction with
  | h0 => simp [toBlocks_nil]
  | hstep l hne ih =>
    have hlen : l.length ≠ 0 := fun hl => hne (List.length_eq_zero.mp hl)
    have h8 : 8 ≤ l.length := Nat.le_of_dvd (Nat.pos_of_ne_zero hlen) h
    have hdvd : 8 ∣ (l.drop 8).length := by
      simp only [List.length_drop]
      exact (Nat.dvd_sub' h ⟨1, rfl⟩)
    rw [toBlocks_of_ne _ hne]
    simp only [List.length_cons]
    have := ih hdvd
    simp only [List.length_drop] at this
    omega

theorem toBlocks_append (a b : List Nat) (h : 8 ∣ a.length) :
    toBlocks (a ++ b) = toBlocks a ++ toBlocks b := by
  induction a using list_drop8_induction with
  | h0 => simp [toBlocks_nil]
  | hstep a hne ih =>
    have hlen : a.length ≠ 0 := fun hl => hne (List.length_eq_zero.mp hl)
    have h8 : 8 ≤ a.length := Nat.le_of_dvd (Nat.pos_of_ne_zero hlen) h
    have hdvd : 8 ∣ (a.drop 8).length := by
      simp only [List.length_drop]
      exact (Nat.dvd_sub' h ⟨1, rfl⟩)
    have hab : a ++ b ≠ [] := by
      intro hcontra
      exact hne (List.append_eq_nil.mp hcontra).1
    have hsplit : a ++ b = a.take 8 ++ (a.drop 8 ++ b) := by
      rw [← List.append_assoc, List.take_append_drop]
    have hlen8 : (a.take 8).length = 8 := by
      simp [List.length_take]
      omega
    have htake : (a ++ b).take 8 = a.take 8 := by
      rw [hsplit]
      exact List.take_left' hlen8
    have hdrop : (a ++ b).drop 8 = a.drop 8 ++ b := by
      rw [hsplit]
      exact List.drop_left' hlen8
    rw [toBlocks_of_ne _ hab, toBlocks_of_ne _ hne, htake, hdrop, ih hdvd]
    rfl

theorem toBlocks_flatten_of_blocks (bs : List (List Nat))
    (h : ∀ b ∈ bs, b.length = 8) : toBlocks bs.flatten = bs := by
  induction bs with
  | nil => simp [toBlocks]
  | cons b bs ih =>
    have hb : b.length = 8 := h b (List.mem_cons_self b bs)
    have hbs : ∀ x ∈ bs, x.length = 8 := fun x hx => h x (List.mem_cons_of_mem b hx)
    have hne : b ++ bs.flatten ≠ [] := by
      intro hcontra
      have := (List.append_eq_nil.mp hcontra).1
      simp [this] at hb
    rw [List.flatten_cons, toBlocks_of_ne _ hne]
    rw [List.take_left' hb, List.drop_left' hb, ih hbs]

theorem flatten_length_of_blocks (bs : List (List Nat))
    (h : ∀ b ∈ bs, b.length = 8) : bs.flatten.length = 8 * bs.length := by
  induction bs with
  | nil => simp
  | cons b bs ih =>
    have hb : b.length = 8 := h b (List.mem_cons_self b bs)
    have hbs : ∀ x ∈ bs, x.length = 8 := fun x hx => h x (List.mem_cons_of_mem b hx)
    simp only [List.flatten_cons, List.length_append, hb, ih hbs, List.length_cons]
    ring

/-! ### Helper lemmas about XOR and CBC -/

theorem length_xorBlock (a b : List Nat) :
    (xorBlock a b).length = min a.length b.length := by
  simp [xorBlock]

theorem xorBlock_cancel (b c : List Nat) (h : b.length ≤ c.length) :
    xorBlock (xorBlock b c) c = b := by
  induction b generalizing c with
  | nil => simp [xorBlock]
  | cons x xs ih =>
    cases c with
    | nil => simp at h
    | cons y ys =>
      simp only [xorBlock, List.zipWith_cons_cons] at *
      have h1 : (x.xor y).xor y = x := Nat.xor_cancel_right y x
      rw [h1]
      exact congrArg (List.cons x)
        (ih ys (by simp only [List.length_cons] at h; omega))

theorem cbcEncBlocks_append (E : List Nat → List Nat) (c : List Nat)
    (xs ys : List (List Nat)) :
    cbcEncBlocks E c (xs ++ ys) =
      cbcEncBlocks E c xs ++ cbcEncBlocks E (cbcLast E c xs) ys := by
  induction xs generalizing c with
  | nil => simp [cbcEncBlocks, cbcLast]
  | cons b bs ih =>
    simp only [List.cons_append, cbcEncBlocks, cbcLast, List.append_eq, ih]

theorem cbcLast_append (E : List Nat → List Nat) (c : List Nat)
    (xs ys : List (List Nat)) :
    cbcLast E c (xs ++ ys) = cbcLast E (cbcLast E c xs) ys := by
  induction xs generalizing c with
  | nil => simp [cbcLast]
  | cons b bs ih =>
    simp only [List.cons_append, cbcLast, List.append_eq, ih]

theorem length_cbcEncBlocks (E : List Nat → List Nat) (c : List Nat)
    (bs : List (List Nat)) : (cbcEncBlocks E c bs).length = bs.length := by
  induction bs generalizing c with
  | nil => simp [cbcEncBlocks]
  | cons b bs ih => simp only [cbcEncBlocks, List.length_cons, ih]

theorem cbcEncBlocks_block_length (E : List Nat → List Nat)
    (hE : ∀ x, x.length = 8 → (E x).length = 8) (c : List Nat)
    (bs : List (List Nat)) (hc : c.length = 8) (hbs : ∀ b ∈ bs, b.length = 8) :
    ∀ ct ∈ cbcEncBlocks E c bs, ct.length = 8 := by
  induction bs generalizing c with
  | nil => simp [cbcEncBlocks]
  | cons b bs ih =>
    have hb : b.length = 8 := hbs b (List.mem_cons_self b bs)
    have hx : (xorBlock b c).length = 8 := by rw [length_xorBlock, hb, hc]; simp
    have hct : (E (xorBlock b c)).length = 8 := hE _ hx
    simp only [cbcEncBlocks, List.mem_cons]
    rintro ct (rfl | hmem)
    · exact hct
    · exact ih _ hct (fun x hmemx => hbs x (List.mem_cons_of_mem b hmemx)) ct hmem

/-! ### Helper lemmas about padding -/

theorem padCount_pos (n : Nat) : 1 ≤ padCount n := by
  have := Nat.mod_lt n (show 0 < 8 by omega)
  unfold padCount
  omega

theorem padCount_le (n : Nat) : padCount n ≤ 8 := by
  unfold padCount
  omega

theorem length_pkcs7pad (b : List Nat) :
    (pkcs7pad b).length = b.length + padCount b.length := by
  simp [pkcs7pad]

theorem dvd_length_pkcs7pad (b : List Nat) : 8 ∣ (pkcs7pad b).length := by
  rw [length_pkcs7pad]
  apply Nat.dvd_of_mod_eq_zero
  unfold padCount
  omega

theorem pkcs7pad_ne_nil (b : List Nat) : pkcs7pad b ≠ [] := by
  intro h
  have hlen := congrArg List.length h
  rw [length_pkcs7pad] at hlen
  simp only [List.length_nil] at hlen
  have := padCount_pos b.length
  omega

theorem pkcs7pad_append (x y : List Nat) (h : 8 ∣ x.length) :
    pkcs7pad (x ++ y) = x ++ pkcs7pad y := by
  obtain ⟨k, hk⟩ := h
  have hmod : (x.length + y.length) % 8 = y.length % 8 := by omega
  simp only [pkcs7pad, padCount, List.length_append, hmod, List.append_assoc]

theorem getLast?_pkcs7pad (b : List Nat) :
    (pkcs7pad b).getLast? = some (padCount b.length) := by
  have h1 : 1 ≤ padCount b.length := padCount_pos b.length
  obtain ⟨m, hm⟩ : ∃ m, padCount b.length = m + 1 :=
    ⟨padCount b.length - 1, by omega⟩
  rw [pkcs7pad, hm, List.replicate_succ', ← List.append_assoc]
  exact List.getLast?_concat _

theorem validPad_pkcs7pad (b : List Nat) : validPad (pkcs7pad b) = true := by
  have hlast := getLast?_pkcs7pad b
  have h1 := padCount_pos b.length
  have h8 := padCount_le b.length
  have hlen := length_pkcs7pad b
  unfold validPad
  rw [hlast]
  simp only [Option.getD_some, Bool.and_eq_true, decide_eq_true_eq]
  refine ⟨⟨h1, h8⟩, ?_⟩
  have hdrop : (pkcs7pad b).drop ((pkcs7pad b).length - padCount b.length) =
      List.replicate (padCount b.length) (padCount b.length) := by
    rw [hlen, Nat.add_sub_cancel, pkcs7pad]
    exact List.drop_left' rfl
  rw [hdrop]
  simp [List.all_eq_true, List.mem_replicate]

theorem stripPad_pkcs7pad (b : List Nat) : stripPad (pkcs7pad b) = b := by
  unfold stripPad
  rw [getLast?_pkcs7pad, length_pkcs7pad]
  simp only [Option.getD_some, Nat.add_sub_cancel, pkcs7pad]
  exact List.take_left' rfl

/-! ### Helper lemmas about the streaming EVP pipeline -/

theorem length_fullPart (l : List Nat) : (fullPart l).length = l.length / 8 * 8 := by
  simp only [fullPart, List.length_take]
  have := Nat.div_mul_le_self l.length 8
  omega

theorem dvd_length_fullPart (l : List Nat) : 8 ∣ (fullPart l).length := by
  rw [length_fullPart]
  exact Dvd.intro_left _ rfl

theorem length_restPart (l : List Nat) : (restPart l).length = l.length % 8 := by
  simp only [restPart, List.length_drop]
  omega

theorem fullPart_append_restPart (l : List Nat) : fullPart l ++ restPart l = l :=
  List.take_append_drop _ l

theorem fullPart_append (x y : List Nat) (h : 8 ∣ x.length) :
    fullPart (x ++ y) = x ++ fullPart y := by
  obtain ⟨k, hk⟩ := h
  have harith : (x ++ y).length / 8 * 8 = x.length + y.length / 8 * 8 := by
    simp only [List.length_append]
    omega
  rw [fullPart, harith, take_len_add]
  rfl

theorem restPart_append (x y : List Nat) (h : 8 ∣ x.length) :
    restPart (x ++ y) = restPart y := by
  obtain ⟨k, hk⟩ := h
  have harith : (x ++ y).length / 8 * 8 = x.length + y.length / 8 * 8 := by
    simp only [List.length_append]
    omega
  rw [restPart, harith, drop_len_add]
  rfl

theorem cbcDec_cbcEnc (E D : List Nat → List Nat)
    (hE : ∀ x, x.length = 8 → (E x).length = 8)
    (hD : ∀ x, x.length = 8 → D (E x) = x)
    (bs : List (List Nat)) (c : List Nat) (hc : c.length = 8)
    (hbs : ∀ b ∈ bs, b.length = 8) :
    cbcDecBlocks D c (cbcEncBlocks E c bs) = bs := by
  induction bs generalizing c with
  | nil => simp [cbcEncBlocks, cbcDecBlocks]
  | cons b bs ih =>
    have hb : b.length = 8 := hbs b (List.mem_cons_self b bs)
    have hx : (xorBlock b c).length = 8 := by rw [length_xorBlock, hb, hc]; simp
    have hct : (E (xorBlock b c)).length = 8 := hE _ hx
    simp only [cbcEncBlocks, cbcDecBlocks]
    rw [hD _ hx, xorBlock_cancel b c (by omega),
        ih _ hct (fun x hmemx => hbs x (List.mem_cons_of_mem b hmemx))]

theorem EVP_EncryptUpdate_nil (E : List Nat → List Nat) (st : EvpCtx)
    (h : st.buf.length < 8) : EVP_EncryptUpdate E st [] = (st, []) := by
  have hdiv : st.buf.length / 8 = 0 := Nat.div_eq_of_lt h
  simp only [EVP_EncryptUpdate, List.append_nil, fullPart, restPart, hdiv,
    Nat.zero_mul, List.take_zero, List.drop_zero, toBlocks_nil, cbcLast,
    cbcEncBlocks, List.flatten_nil]

theorem EVP_EncryptUpdate_buf_lt (E : List Nat → List Nat) (st : EvpCtx)
    (data : List Nat) : ((EVP_EncryptUpdate E st data).1).buf.length < 8 := by
  simp only [EVP_EncryptUpdate, length_restPart]
  omega

theorem EVP_EncryptUpdate_append (E : List Nat → List Nat) (st : EvpCtx)
    (a b : List Nat) :
    EVP_EncryptUpdate E st (a ++ b) =
      ((EVP_EncryptUpdate E (EVP_EncryptUpdate E st a).1 b).1,
       (EVP_EncryptUpdate E st a).2 ++
         (EVP_EncryptUpdate E (EVP_EncryptUpdate E st a).1 b).2) := by
  have hdvd : 8 ∣ (fullPart (st.buf ++ a)).length := dvd_length_fullPart _
  have hsplit : st.buf ++ (a ++ b) =
      fullPart (st.buf ++ a) ++ (restPart (st.buf ++ a) ++ b) := by
    conv_lhs => rw [← List.append_assoc, ← fullPart_append_restPart (st.buf ++ a)]
    rw [List.append_assoc]
  simp only [EVP_EncryptUpdate, hsplit, fullPart_append _ _ hdvd,
    restPart_append _ _ hdvd, toBlocks_append _ _ hdvd, cbcEncBlocks_append,
    cbcLast_append, List.flatten_append]

theorem runUpdates_eq_single (E : List Nat → List Nat) (cs : List (List Nat)) :
    ∀ st : EvpCtx, st.buf.length < 8 →
      runUpdates E st cs = EVP_EncryptUpdate E st cs.flatten := by
  induction cs with
  | nil =>
    intro st hst
    rw [runUpdates, List.flatten_nil, EVP_EncryptUpdate_nil E st hst]
  | cons c cs ih =>
    intro st hst
    rw [runUpdates, List.flatten_cons, EVP_EncryptUpdate_append,
        ih _ (EVP_EncryptUpdate_buf_lt E st c)]

theorem encrypt_file_eq_update_final (E : List Nat → List Nat) (iv : List Nat)
    (chunks : List (List Nat)) :
    encrypt_file E iv chunks =
      (EVP_EncryptUpdate E ⟨iv, []⟩ chunks.flatten).2 ++
        EVP_EncryptFinal E (EVP_EncryptUpdate E ⟨iv, []⟩ chunks.flatten).1 := by
  rw [encrypt_file, runUpdates_eq_single E chunks ⟨iv, []⟩ (by simp)]

theorem encryptBytes_eq (E : List Nat → List Nat) (iv data : List Nat) :
    encryptBytes E iv data =
      (cbcEncBlocks E iv (toBlocks (pkcs7pad data))).flatten := by
  have hdvd : 8 ∣ (fullPart data).length := dvd_length_fullPart data
  have hpad : pkcs7pad data = fullPart data ++ pkcs7pad (restPart data) := by
    conv_lhs => rw [← fullPart_append_restPart data]
    exact pkcs7pad_append _ _ hdvd
  rw [encryptBytes, encrypt_file_eq_update_final]
  simp only [List.flatten_cons, List.flatten_nil, List.append_nil]
  simp only [EVP_EncryptUpdate, EVP_EncryptFinal, List.nil_append]
  rw [hpad, toBlocks_append _ _ hdvd, cbcEncBlocks_append, List.flatten_append]

theorem length_encryptBytes (E : List Nat → List Nat) (iv data : List Nat)
    (hE : ∀ x, x.length = 8 → (E x).length = 8) (hiv : iv.length = 8) :
    (encryptBytes E iv data).length = data.length + padCount data.length := by
  have hdvd := dvd_length_pkcs7pad data
  have hblocks := toBlocks_block_length _ hdvd
  have hct := cbcEncBlocks_block_length E hE iv (toBlocks (pkcs7pad data)) hiv hblocks
  rw [encryptBytes_eq, flatten_length_of_blocks _ hct, length_cbcEncBlocks]
  have h1 := toBlocks_length_mul _ hdvd
  have h2 := length_pkcs7pad data
  omega

/-! ### Helper lemmas about strlen and the derivation loops -/

theorem take_indexOf_zero (p : List Nat) (h : (0 : Nat) ∈ p) :
    p.take (p.indexOf 0 + 1) = p.takeWhile (fun b => b != 0) ++ [0] := by
  induction p with
  | nil => simp at h
  | cons a t ih =>
    by_cases ha : a = 0
    · subst ha
      rw [List.indexOf_cons_self]
      simp [List.takeWhile]
    · have hmem : (0 : Nat) ∈ t := by
        rcases List.mem_cons.mp h with h0 | h0
        · exact absurd h0.symm ha
        · exact h0
      rw [List.indexOf_cons_ne _ ha]
      simp only [Nat.succ_eq_add_one, List.take_succ_cons]
      rw [ih hmem]
      have hba : (a != 0) = true := by simpa using ha
      simp [List.takeWhile, hba]

theorem btkLoop_zero (H : List Nat → List Nat) (pw prev : List Nat) :
    btkLoop H pw prev 0 = [] := by
  rw [btkLoop]
  simp

theorem refStream_zero (H : List Nat → List Nat) (pw : List Nat) (i : Nat) :
    refStream H pw i 0 = [] := by
  rw [refStream]
  simp

theorem btkLoop_one_round (H : List Nat → List Nat) (pw : List Nat)
    (hH : ∀ x, (H x).length = 32) : btkLoop H pw [] (24 + 8) = H pw := by
  rw [btkLoop]
  simp only [List.nil_append, hH]
  norm_num
  rw [btkLoop_zero]

theorem refStream_one_round (H : List Nat → List Nat) (pw : List Nat)
    (hH : ∀ x, (H x).length = 32) : refStream H pw 0 (24 + 8) = H pw := by
  rw [refStream]
  simp only [digestIter, hH]
  norm_num
  rw [refStream_zero]

/-! ### The claims -/

/-- C1: for every byte sequence `b` and every password-derived cipher
(forward permutation `E` with inverse `D` on 8-byte blocks, and an 8-byte
IV), decrypting the output of encryption yields exactly `b`. -/
theorem round_trip (E D : List Nat → List Nat) (iv b : List Nat)
    (hE : ∀ x, x.length = 8 → (E x).length = 8)
    (hD : ∀ x, x.length = 8 → D (E x) = x)
    (hiv : iv.length = 8) :
    decrypt_file D iv (encryptBytes E iv b) = Except.ok b := by
  have hdvd := dvd_length_pkcs7pad b
  have hblocks := toBlocks_block_length _ hdvd
  have hctblocks := cbcEncBlocks_block_length E hE iv (toBlocks (pkcs7pad b)) hiv hblocks
  have hlen : (encryptBytes E iv b).length = b.length + padCount b.length :=
    length_encryptBytes E iv b hE hiv
  have hpos := padCount_pos b.length
  have hlenpad := length_pkcs7pad b
  obtain ⟨k, hk⟩ := hdvd
  have hcond : ¬((encryptBytes E iv b).length = 0 ∨
      (encryptBytes E iv b).length % 8 ≠ 0) := by
    push_neg
    omega
  simp only [decrypt_file]
  rw [if_neg hcond, encryptBytes_eq, toBlocks_flatten_of_blocks _ hctblocks,
      cbcDec_cbcEnc E D hE hD _ iv hiv hblocks, flatten_toBlocks,
      validPad_pkcs7pad, if_pos rfl, stripPad_pkcs7pad]

/-- C1 witness: the round trip at the identity permutation, the all-zero
IV and the input `[1, 2, 3]`. -/
theorem round_trip_witness :
    decrypt_file id (List.replicate 8 0)
      (encryptBytes id (List.replicate 8 0) [1, 2, 3]) = Except.ok [1, 2, 3] :=
  round_trip id id (List.replicate 8 0) [1, 2, 3]
    (fun _ hx => hx) (fun _ _ => rfl) (by decide)

/-- C2: the key/IV derivation of `generate_key_iv` coincides with the
reference EVP_BytesToKey definition (single iteration, no salt, digest
concatenation, first 24 bytes key, next 8 bytes IV) for any digest with
SHA-256's 32-byte output length, applied to the strlen-delimited password
bytes. -/
theorem generate_key_iv_matches_reference (H : List Nat → List Nat)
    (p : List Nat) (hH : ∀ x, (H x).length = 32) :
    generate_key_iv H p = refKeyIV H (strlenBytes p) := by
  simp only [generate_key_iv, EVP_BytesToKey, refKeyIV, keyLen, ivLen,
    btkLoop_one_round H (strlenBytes p) hH, refStream_one_round H (strlenBytes p) hH]

/-- C2 witness: the derivation agrees with the reference definition at a
concrete 32-byte digest and the password bytes `[104, 105]`. -/
theorem generate_key_iv_matches_reference_witness :
    generate_key_iv constH [104, 105] = refKeyIV constH (strlenBytes [104, 105]) :=
  generate_key_iv_matches_reference constH [104, 105] (fun x => by simp [constH])

/-- C3 counterexample: on the 11-byte input, the encryption output length
is 16, not the 24 bytes that "input length rounded up to the next
multiple of the block size plus one additional block" claims. -/
theorem encrypt_output_length_claim_false :
    (encryptBytes id (List.replicate 8 0) (List.replicate 11 0)).length ≠
      claimedEncLen (List.replicate 11 0).length := by decide

/-- C3 amended: the total encryption output length is the input length
rounded up to the next strictly larger multiple of the block size,
`(n / 8 + 1) * 8`; the extra full block appears only when the input
length is already a multiple of the block size. -/
theorem encrypt_output_length (E : List Nat → List Nat) (iv data : List Nat)
    (hE : ∀ x, x.length = 8 → (E x).length = 8) (hiv : iv.length = 8) :
    (encryptBytes E iv data).length = (data.length / 8 + 1) * 8 := by
  rw [length_encryptBytes E iv data hE hiv]
  unfold padCount
  omega

/-- C3 witness: the amended length formula at the identity permutation
and the 11-byte input (16 bytes of output). -/
theorem encrypt_output_length_witness :
    (encryptBytes id (List.replicate 8 0) (List.replicate 11 0)).length =
      ((List.replicate 11 0).length / 8 + 1) * 8 :=
  encrypt_output_length id (List.replicate 8 0) (List.replicate 11 0)
    (fun _ hx => hx) (by decide)

/-- C4: encrypting an empty input yields exactly one block (8 bytes) of
output whose plaintext content is pure padding (eight bytes of value 8),
and encrypting an input whose length is a multiple of the block size
yields input length + 8 bytes of output. -/
theorem padding_correctness (E : List Nat → List Nat) (iv : List Nat)
    (hE : ∀ x, x.length = 8 → (E x).length = 8) (hiv : iv.length = 8)
    (data : List Nat) (hdata : data.length % 8 = 0) :
    ((encryptBytes E iv []).length = 8 ∧ pkcs7pad [] = List.replicate 8 8) ∧
      (encryptBytes E iv data).length = data.length + 8 := by
  refine ⟨⟨?_, ?_⟩, ?_⟩
  · rw [length_encryptBytes E iv [] hE hiv]
    decide
  · decide
  · rw [length_encryptBytes E iv data hE hiv]
    unfold padCount
    omega

/-- C4 witness: padding correctness at the identity permutation, for the
empty input and a 16-byte input. -/
theorem padding_correctness_witness :
    ((encryptBytes id (List.replicate 8 0) []).length = 8 ∧
        pkcs7pad [] = List.replicate 8 8) ∧
      (encryptBytes id (List.replicate 8 0) (List.replicate 16 7)).length =
        (List.replicate 16 7).length + 8 :=
  padding_correctness id (List.replicate 8 0) (fun _ hx => hx) (by decide)
    (List.replicate 16 7) (by decide)

/-- C5: decryption validates the PKCS#7 padding of the decrypted data: if
the padding is invalid (count outside [1, 8] or trailing bytes not all
equal to the count) the result is `PaddingError`, and whenever decryption
succeeds the padding was valid and has been stripped from the output. -/
theorem decrypt_validates_padding (D : List Nat → List Nat) (iv ct : List Nat) :
    (validPad ((cbcDecBlocks D iv (toBlocks ct)).flatten) = false →
      decrypt_file D iv ct = Except.error TransformError.PaddingError) ∧
    ∀ out, decrypt_file D iv ct = Except.ok out →
      validPad ((cbcDecBlocks D iv (toBlocks ct)).flatten) = true ∧
      out = stripPad ((cbcDecBlocks D iv (toBlocks ct)).flatten) := by
  constructor
  · intro hbad
    simp only [decrypt_file]
    split
    · rfl
    · rw [hbad]
      simp
  · intro out hok
    simp only [decrypt_file] at hok
    by_cases h1 : ct.length = 0 ∨ ct.length % 8 ≠ 0
    · rw [if_pos h1] at hok
      exact absurd hok (by simp)
    · rw [if_neg h1] at hok
      by_cases hv : validPad ((cbcDecBlocks D iv (toBlocks ct)).flatten) = true
      · rw [hv, if_pos rfl] at hok
        have := Except.ok.inj hok
        exact ⟨hv, this.symm⟩
      · have hbad : validPad ((cbcDecBlocks D iv (toBlocks ct)).flatten) = false := by
          simpa using hv
        rw [hbad] at hok
        simp at hok

/-- C5 witness: the all-zero single-block ciphertext decrypts (under the
identity permutation and all-zero IV) to data with invalid padding, and
decryption fails with `PaddingError`. -/
theorem decrypt_validates_padding_witness :
    decrypt_file id (List.replicate 8 0) (List.replicate 8 0) =
      Except.error TransformError.PaddingError :=
  (decrypt_validates_padding id (List.replicate 8 0) (List.replicate 8 0)).1
    (by decide)

/-- C6: the key/IV derivation is a pure deterministic function of the
password alone — two invocations on the same password yield byte-identical
(key, iv) pairs. -/
theorem generate_key_iv_deterministic (H : List Nat → List Nat) (p : List Nat)
    (kiv1 kiv2 : List Nat × List Nat)
    (h1 : kiv1 = generate_key_iv H p) (h2 : kiv2 = generate_key_iv H p) :
    kiv1 = kiv2 :=
  h1.trans h2.symm

/-- C6 witness: two derivations on the password bytes `[104]` agree. -/
theorem generate_key_iv_deterministic_witness :
    generate_key_iv constH [104] = generate_key_iv constH [104] :=
  generate_key_iv_deterministic constH [104] _ _ rfl rfl

/-- C7 counterexample: on the derivation-failure path the program does not
return a typed error value — it terminates the process with exit status 1
(both inside `generate_key_iv` and as observed from `encrypt_file`). -/
theorem error_path_exits_process :
    generate_key_iv_run false = Outcome.exitProcess 1 ∧
      encrypt_file_run (RunEnv.mk true false true true true true true) =
        Outcome.exitProcess 1 := by decide

/-- C7 amended: every failure of the core (file-open failure, derivation
failure, cipher-context allocation or init failure, update or final
failure) prints an error message and terminates the process with exit
status 1; no error is returned to the caller as a value. -/
theorem failures_terminate_process (env : RunEnv)
    (hfail : ¬(env.openOk ∧ env.btkOk ∧ env.ctxNewOk ∧ env.initOk ∧
      env.updateOk ∧ env.finalOk)) :
    encrypt_file_run env = Outcome.exitProcess 1 := by
  obtain ⟨o, bt, c, i, u, f, w⟩ := env
  revert hfail
  cases o <;> cases bt <;> cases c <;> cases i <;> cases u <;> cases f <;>
    cases w <;> decide

/-- C7 witness: the finalization-failure path terminates the process with
exit status 1. -/
theorem failures_terminate_process_witness :
    encrypt_file_run (RunEnv.mk true true true true true false true) =
      Outcome.exitProcess 1 :=
  failures_terminate_process (RunEnv.mk true true true true true false true)
    (by decide)

/-- C8: encryption output is independent of how the input stream is
partitioned into fread chunks — processing the chunks one by one and
processing their concatenation as a single chunk produce byte-identical
output. -/
theorem streaming_equivalence (E : List Nat → List Nat) (iv : List Nat)
    (chunks : List (List Nat)) :
    encrypt_file E iv chunks = encrypt_file E iv [chunks.flatten] := by
  rw [encrypt_file_eq_update_final, encrypt_file_eq_update_final]
  simp only [List.flatten_cons, List.flatten_nil, List.append_nil]

/-- C9: a failing fwrite to the output stream is silently ignored — the
run with every write failing returns normally with status 0, identical to
the run with all writes succeeding; no `IOFailure` is ever produced. -/
theorem write_failure_silently_ignored :
    encrypt_file_run (RunEnv.mk true true true true true true false) =
        Outcome.ret 0 ∧
      encrypt_file_run (RunEnv.mk true true true true true true false) =
        encrypt_file_run (RunEnv.mk true true true true true true true) := by
  decide

/-- C10: the password is consumed via strlen, so only the bytes before the
first NUL contribute to the derivation: any two passwords that agree up to
and including their first NUL byte derive identical (key, iv) pairs. -/
theorem password_truncated_at_first_nul (H : List Nat → List Nat)
    (p1 p2 : List Nat) (h1 : (0 : Nat) ∈ p1) (h2 : (0 : Nat) ∈ p2)
    (hpre : p1.take (p1.indexOf 0 + 1) = p2.take (p2.indexOf 0 + 1)) :
    generate_key_iv H p1 = generate_key_iv H p2 := by
  rw [take_indexOf_zero p1 h1, take_indexOf_zero p2 h2] at hpre
  have heq : p1.takeWhile (fun b => b != 0) = p2.takeWhile (fun b => b != 0) := by
    have hdl := congrArg List.dropLast hpre
    simpa [List.dropLast_concat] using hdl
  simp only [generate_key_iv, strlenBytes, heq]

/-- C10 witness: passwords `[104, 0, 120]` and `[104, 0, 121]` differ only
after their embedded NUL and derive identical key material. -/
theorem password_truncated_at_first_nul_witness :
    generate_key_iv constH [104, 0, 120] = generate_key_iv constH [104, 0, 121] :=
  password_truncated_at_first_nul constH [104, 0, 120] [104, 0, 121]
    (by decide) (by decide) (by decide)

end Lab
